import Mathlib

/-!
Verification of the document-acquisition and prediction pipeline in
`packages/napthaai/customs/prediction_url_cot_claude/prediction_url_cot_claude.py`.

Python strings are modelled as `List Char` (`Str`).  Python's string
operations used by the code are given faithful executable models:
`str.split()` (whitespace words) is `pyWords`, `str.split(sep)` is
`splitOnSub`, `str.strip()` is `pyStrip`, `str.replace('"','')` is
`removeQuotes`, and `re.sub(r'<[^>]*>', '', s)` is `removeTags`.
External capabilities (the Claude model call, Google search, HTTP fetch,
readability/markdownify, PyPDF2, `float()`) are parameters/oracles of the
embedded functions; everything the repository's own code computes is
translated directly from the source.
-/

namespace Mech

/-- Python strings are modelled as lists of characters. -/
abbrev Str := List Char

/-- Coerce a Lean string literal to the `Str` model. -/
def str (s : String) : Str := s.data

/-- Python's whitespace test used by `str.split()` / `str.strip()`
(ASCII whitespace; astral unicode spaces are not used by this program). -/
def isPySpace (c : Char) : Bool :=
  c = ' ' || c = '\t' || c = '\n' || c = '\r' || c = '\x0b' || c = '\x0c'

/-- Accumulator worker for `pyWords`; `acc` holds the reversed current word. -/
def wordsAux : List Char → List Char → List (List Char)
  | [], acc => if acc = [] then [] else [acc.reverse]
  | c :: cs, acc =>
    if isPySpace c then
      if acc = [] then wordsAux cs [] else acc.reverse :: wordsAux cs []
    else
      wordsAux cs (c :: acc)

/-- Model of Python `s.split()` with no argument: split on runs of
whitespace, dropping empty pieces. -/
def pyWords (s : Str) : List Str := wordsAux s []

/-- Model of `count_words` (source line 320): `len(text.split())`. -/
def count_words (text : Str) : Nat := (pyWords text).length

/-- Model of Python `s.strip()`: drop leading and trailing whitespace. -/
def pyStrip (s : Str) : Str :=
  ((s.dropWhile isPySpace).reverse.dropWhile isPySpace).reverse

/-- Fuelled worker for `splitOnSub`; `acc` holds the reversed current
piece.  At each position, if the separator is a prefix of the remainder the
piece is cut and scanning resumes after the separator (Python's leftmost,
non-overlapping `str.split(sep)` semantics).  The fuel only makes the
recursion structural: `splitOnSub` passes the input's length, which never
runs out (`splitOnFuel_fuel_irrel`). -/
def splitOnFuel (sep : List Char) : Nat → List Char → List Char → List (List Char)
  | _, [], acc => [acc.reverse]
  | 0, s, acc => [acc.reverse ++ s]
  | fuel + 1, c :: cs, acc =>
    if sep ≠ [] ∧ sep.isPrefixOf (c :: cs) then
      acc.reverse :: splitOnFuel sep fuel ((c :: cs).drop sep.length) []
    else
      splitOnFuel sep fuel cs (c :: acc)

/-- Model of Python `s.split(sep)` for a non-empty separator. -/
def splitOnSub (sep s : Str) : List Str :=
  if sep = [] then [s] else splitOnFuel sep s.length s []

/-- Model of Python `s.replace('"', '')`: removing a single character is a
filter. -/
def removeQuotes (s : Str) : Str := s.filter (fun c => c ≠ '"')

/-- One-pass worker modelling `re.sub(r'<[^>]*>', '', s)`.  The state is
`none` outside a candidate match and `some buf` (reversed buffer, starting
with the pending `<`) inside one; a `>` discards the buffer (a complete
match `<[^>]*>`), and a buffer left over at the end of the input is an
unmatched `<...` and is emitted verbatim, exactly as the regex leaves it. -/
def stripTagsAux : List Char → Option (List Char) → List Char
  | [], none => []
  | [], some buf => buf.reverse
  | c :: cs, none =>
    if c = '<' then stripTagsAux cs (some [c]) else c :: stripTagsAux cs none
  | c :: cs, some buf =>
    if c = '>' then stripTagsAux cs none else stripTagsAux cs (some (c :: buf))

/-- Model of `re.sub(r'<[^>]*>', '', query)` at line 168. -/
def removeTags (s : Str) : Str := stripTagsAux s none

/-- Keep the elements at even indices: Python's `l[::2]` (line 162). -/
def everyOther : List Str → List Str
  | [] => []
  | [x] => [x]
  | x :: _ :: rest => x :: everyOther rest

/-- Model of the `Document` pydantic model (source lines 99-102); the
`embedding` field is always `None` in this tool and is omitted. -/
structure Document where
  text : Str
  url : Str
deriving DecidableEq, Repr

/-- Model of the Python dict insertion `m[k] = v`: an existing key keeps
its position and gets the new value, a fresh key is appended. -/
def insertOrUpdate (m : List (Str × Nat)) (k : Str) (v : Nat) : List (Str × Nat) :=
  if m.any (fun p => p.1 = k) then
    m.map (fun p => if p.1 = k then (k, v) else p)
  else
    m ++ [(k, v)]

/-- Model of `word_counts = {doc.url: count_words(doc.text) for doc in docs}`
(line 332): a dict comprehension in insertion order, later duplicates
overwriting earlier values. -/
def wordCounts (docs : List Document) : List (Str × Nat) :=
  docs.foldl (fun m d => insertOrUpdate m d.url (count_words d.text)) []

/-- Model of `word_counts[u]` / `word_counts.get(u)` for a key `u` of the
dict (0 as an arbitrary value off the key set, never reached by the code). -/
def lookupWC (m : List (Str × Nat)) (k : Str) : Nat :=
  match m.find? (fun p => p.1 = k) with
  | some p => p.2
  | none => 0

/-- Stable descending insertion: the new key goes after every key with a
word count at least its own, before the first strictly smaller one. -/
def insertDesc (m : List (Str × Nat)) (x : Str) : List Str → List Str
  | [] => [x]
  | y :: ys => if lookupWC m y < lookupWC m x then x :: y :: ys else y :: insertDesc m x ys

/-- Model of `sorted(word_counts, key=word_counts.get, reverse=True)`
(line 335): Python's stable sort of the dict's keys by descending count. -/
def sortKeysDesc (m : List (Str × Nat)) (keys : List Str) : List Str :=
  keys.foldl (fun acc k => insertDesc m k acc) []

/-- Model of the selection walk (lines 337-342): greedily accept keys with
count at least 60, stopping as soon as exactly 4 have been accepted. -/
def selectLoop (m : List (Str × Nat)) : List Str → List Str → List Str
  | [], acc => acc
  | u :: us, acc =>
    let acc' := if 60 ≤ lookupWC m u then acc ++ [u] else acc
    if acc'.length = 4 then acc' else selectLoop m us acc'

/-- Model of the per-document cap (lines 348-350):
`doc.text = " ".join(doc.text.split()[:10000])` when the recorded count
exceeds 10000. -/
def truncateDoc (m : List (Str × Nat)) (d : Document) : Document :=
  if 10000 < lookupWC m d.url then
    { d with text := List.intercalate [' '] ((pyWords d.text).take 10000) }
  else d

/-- Model of `select_docs` (lines 324-352).  The parameters `n_docs`,
`min_words` and `max_words` mirror the Python signature; the body — like
the source — uses the literals 60, 4 and 10000 and never reads them. -/
def select_docs (docs : List Document) (n_docs min_words max_words : Nat) :
    List Document :=
  let m := wordCounts docs
  let sorted := sortKeysDesc m (m.map Prod.fst)
  let sel := selectLoop m sorted []
  (docs.filter (fun d => sel.contains d.url)).map (truncateDoc m)

/-- The single-character check `query[0].isdigit()` (line 156); surviving
lines are non-empty, and on the empty list the Python code cannot be
reached (`false` is an arbitrary total value). -/
def headIsDigit : Str → Bool
  | [] => false
  | c :: _ => c.isDigit

/-- Per-line cleanup of the loop body at lines 155-159: strip a leading
`"N. "` ordinal prefix when the line starts with a digit
(`". ".join(query.split(". ")[1:])`), then `query.replace('"', '')`. -/
def enhance_line (q : Str) : Str :=
  let q1 :=
    if headIsDigit q then List.intercalate (str ". ") ((splitOnSub (str ". ") q).drop 1)
    else q
  removeQuotes q1

/-- Lines 151-152 of `parser_query_response`: the substring between the
first `<queries>` and the next `</queries>`, split on newlines, stripped,
with empty lines dropped.  `none` models the `IndexError` raised by
`response.split("<queries>")[1]` when the opening tag is absent. -/
def parsedLines (response : Str) : Option (List Str) :=
  ((splitOnSub (str "<queries>") response)[1]?).map (fun inner =>
    ((splitOnSub (str "\n") ((splitOnSub (str "</queries>") inner).headD [])).map
        pyStrip).filter (fun q => q ≠ []))

/-- The `enhanced_queries` list built by the loop at lines 153-159. -/
def enhancedLines (response : Str) : Option (List Str) :=
  (parsedLines response).map (List.map enhance_line)

/-- Model of `parser_query_response` (lines 149-170): the enhanced lines,
thinned to the even indices when their number is exactly `2 * num_queries`,
then a second `replace('"', '')` pass and the `re.sub(r'<[^>]*>', '', ·)`
pass.  `none` models the function raising (absent `<queries>` tag). -/
def parser_query_response (response : Str) (num_queries : Nat) : Option (List Str) :=
  (enhancedLines response).map (fun enhanced =>
    let sel := if enhanced.length = num_queries * 2 then everyOther enhanced else enhanced
    (sel.map removeQuotes).map removeTags)

/-- Model of `multi_queries` (lines 111-146) given the text of the model's
response (the Claude call itself is external): parse the response and
append the original prompt (line 144). -/
def multi_queries (responseText : Str) (prompt : Str) (num_queries : Nat) :
    Option (List Str) :=
  (parser_query_response responseText num_queries).map (fun qs => qs ++ [prompt])

/-- Model of the query-generation stage of `fetch_additional_information`
(lines 371-384): `modelResponse = none` models the Claude call itself
raising; a parse failure inside `multi_queries` is caught by the same
`except`, and both fall back to `[prompt]`. -/
def queryGenStage (modelResponse : Option Str) (prompt : Str) (num_queries : Nat) :
    List Str :=
  match modelResponse with
  | none => [prompt]
  | some resp =>
    match multi_queries resp prompt num_queries with
    | some qs => qs
    | none => [prompt]

/-- Outcome of `extract_text_from_pdf`'s own HTTP fetch, `Content-Type`
check and PyPDF2 extraction (lines 237-248), which are external to the
selection logic: `ok text` is the concatenated page text, `notPdf` is the
`return ValueError(...)` branch at line 242, `err` is any raised exception
(caught at line 254, returning `None`). -/
inductive PdfOutcome
  | ok (text : Str)
  | notPdf
  | err
deriving DecidableEq, Repr

/-- An entry of the list built by `extract_texts`: normally a `Document`,
but the `notPdf` branch of `extract_text_from_pdf` returns a `ValueError`
object which then has `.url` set on it and is appended as-is (line 303-304). -/
inductive Element
  | doc (d : Document)
  | errObj (url : Str)
deriving DecidableEq, Repr

/-- Model of `extract_text` (lines 213-232) applied to the markdown text
produced by the external readability + markdownify transform: Python's
`if num_words:` is truthiness, so both `None` and `0` take the
whitespace-normalising branch, and a positive cap keeps the first
`num_words` whitespace-delimited tokens.  The returned document has
`url = ""`; the caller assigns the URL. -/
def extract_text (mdText : Str) (num_words : Option Nat) : Document :=
  match num_words with
  | some (n + 1) => ⟨List.intercalate [' '] ((pyWords mdText).take (n + 1)), []⟩
  | _ => ⟨List.intercalate [' '] (pyWords mdText), []⟩

/-- Model of `extract_text_from_pdf` (lines 235-256) given the outcome of
its external fetch/parse: on success the text is sliced as
`text[:num_words] if num_words else text` — a *character* slice (and `0`
is falsy); the `notPdf` branch returns the `ValueError` object; a raised
exception is caught and returns `None`. -/
def extract_text_from_pdf (outcome : PdfOutcome) (url : Str) (num_words : Option Nat) :
    Option Element :=
  match outcome with
  | .ok text =>
    some (.doc ⟨(match num_words with | some (n + 1) => text.take (n + 1) | _ => text), url⟩)
  | .notPdf => some (.errObj [])
  | .err => none

/-- Model of one HTTP response as seen by `extract_texts`: status code,
raw body bytes (for the `%PDF` magic check) and decoded text. -/
structure Response where
  status : Nat
  content : Str
  text : Str
deriving DecidableEq, Repr

/-- One URL's worth of input to `extract_texts`: `resp = none` models a
fetch whose submission failed (`future is None`) or whose `future.result()`
raised; `pdfO` is the outcome of `extract_text_from_pdf`'s external work
for this URL; `htmlO` is the readability + markdownify output on
`resp.text` (`none` when that transform raises). -/
structure UrlInput where
  url : Str
  resp : Option Response
  pdfO : PdfOutcome
  htmlO : Option Str
deriving DecidableEq, Repr

/-- The content-signature test at line 299:
`url.endswith('.pdf') or result.content[:4] == b'%PDF'`. -/
def pdfTag (url : Str) (r : Response) : Bool :=
  (str ".pdf").isSuffixOf url || r.content.take 4 = str "%PDF"

/-- Set the `.url` attribute (line 303); Python happily sets it on the
`ValueError` object from the `notPdf` branch as well. -/
def setUrl (e : Element) (u : Str) : Element :=
  match e with
  | .doc d => .doc { d with url := u }
  | .errObj _ => .errObj u

/-- Per-URL body of `extract_texts` (lines 292-307): skip missing/raised
futures, require status 200, route by content signature, and absorb a
`None` from `extract_text_from_pdf` (the `doc.url = url` line raises
`AttributeError` on `None`, caught by the `except` at 305) as well as a
raised readability transform. -/
def processUrl (inp : UrlInput) (num_words : Option Nat) : Option Element :=
  match inp.resp with
  | none => none
  | some r =>
    if r.status = 200 then
      if pdfTag inp.url r then
        (extract_text_from_pdf inp.pdfO inp.url num_words).map (fun e => setUrl e inp.url)
      else
        inp.htmlO.map (fun mdText => setUrl (.doc (extract_text mdText num_words)) inp.url)
    else none

/-- Model of `extract_texts` (lines 288-308).  `process_in_batches` yields
the same `(future, url)` pairs in input order, five at a time; the nested
`for batch / for future, url` loop therefore appends per-URL results in
input order, which `filterMap` reproduces. -/
def extract_texts (inputs : List UrlInput) (num_words : Option Nat) : List Element :=
  inputs.filterMap (fun inp => processUrl inp num_words)

/-- The four required keys of `parser_prediction_response` (line 432), in
loop order. -/
def predictionKeys : List Str :=
  [str "p_yes", str "p_no", str "info_utility", str "confidence"]

/-- Python `f"<{key}>"`. -/
def tagOpen (k : Str) : Str := '<' :: k ++ ['>']

/-- Python `f"</{key}>"`. -/
def tagClose (k : Str) : Str := '<' :: '/' :: k ++ ['>']

/-- Line 434: `response.split(f"<{key}>")[1].split(f"</{key}>")[0].strip()`;
`none` models the `IndexError` when the opening tag is absent. -/
def extractTagContent (response : Str) (k : Str) : Option Str :=
  ((splitOnSub (tagOpen k) response)[1]?).map (fun after =>
    pyStrip ((splitOnSub (tagClose k) after).headD []))

/-- One field of `parser_prediction_response`: extract the tag content and
convert it with `float(value)`, whose (external, floating-point) behaviour
is the oracle `parseF`; `none` models either failure, both caught by the
same `except` at line 438. -/
def parseField (parseF : Str → Option ℚ) (response : Str) (k : Str) : Option ℚ :=
  (extractTagContent response k).bind parseF

/-- The loop of `parser_prediction_response` (lines 432-439): fields are
parsed in order and the first failure raises
`ValueError(f"Error parsing {key}")`. -/
def parseFields (parseF : Str → Option ℚ) (response : Str) :
    List Str → Except Str (List (Str × ℚ))
  | [] => .ok []
  | k :: ks =>
    match parseField parseF response k with
    | none => .error (str "Error parsing " ++ k)
    | some v =>
      match parseFields parseF response ks with
      | .error e => .error e
      | .ok rest => .ok ((k, v) :: rest)

instance {ε α : Type} [DecidableEq ε] [DecidableEq α] : DecidableEq (Except ε α) := fun
  | .ok a, .ok b =>
    if h : a = b then .isTrue (by rw [h]) else .isFalse (by simp [h])
  | .error a, .error b =>
    if h : a = b then .isTrue (by rw [h]) else .isFalse (by simp [h])
  | .ok _, .error _ => .isFalse (by simp)
  | .error _, .ok _ => .isFalse (by simp)

/-- Model of `parser_prediction_response` (lines 429-442) up to the final
`json.dumps` serialisation (pure rendering of the mapping, omitted):
the four-key mapping in insertion order, or the first field error. -/
def parser_prediction_response (parseF : Str → Option ℚ) (response : Str) :
    Except Str (List (Str × ℚ)) :=
  parseFields parseF response predictionKeys

/-! ### Lemmas about `pyWords` (Python `str.split()`) -/

theorem wordsAux_chunks : ∀ (s acc : List Char),
    (∀ c ∈ acc, isPySpace c = false) →
    ∀ w ∈ wordsAux s acc, w ≠ [] ∧ ∀ c ∈ w, isPySpace c = false := by
  intro s
  induction s with
  | nil =>
    intro acc hacc w hw
    by_cases h : acc = []
    · simp [wordsAux, h] at hw
    · simp [wordsAux, h] at hw
      subst hw
      refine ⟨by simpa using h, fun c hc => hacc c (by simpa using hc)⟩
  | cons c cs ih =>
    intro acc hacc w hw
    by_cases hsp : isPySpace c = true
    · by_cases h : acc = []
      · simp [wordsAux, hsp, h] at hw
        exact ih [] (by simp) w hw
      · simp [wordsAux, hsp, h] at hw
        rcases hw with hw | hw
        · subst hw
          exact ⟨by simpa using h, fun c hc => hacc c (by simpa using hc)⟩
        · exact ih [] (by simp) w hw
    · simp [wordsAux, hsp] at hw
      refine ih (c :: acc) ?_ w hw
      intro c' hc'
      rcases List.mem_cons.mp hc' with h | h
      · subst h; simpa using hsp
      · exact hacc c' h

theorem pyWords_chunks (s : Str) :
    ∀ w ∈ pyWords s, w ≠ [] ∧ ∀ c ∈ w, isPySpace c = false :=
  wordsAux_chunks s [] (by simp)

theorem wordsAux_all_nonspace : ∀ (s acc : List Char),
    (∀ c ∈ s, isPySpace c = false) → acc.reverse ++ s ≠ [] →
    wordsAux s acc = [acc.reverse ++ s] := by
  intro s
  induction s with
  | nil =>
    intro acc _ hne
    have hacc : acc ≠ [] := by
      intro h; apply hne; simp [h]
    simp [wordsAux, hacc]
  | cons c cs ih =>
    intro acc hs _
    have hc : isPySpace c = false := hs c (List.mem_cons_self _ _)
    have heq : wordsAux (c :: cs) acc = wordsAux cs (c :: acc) := by
      simp [wordsAux, hc]
    rw [heq, ih (c :: acc) (fun c' hc' => hs c' (List.mem_cons_of_mem _ hc')) (by simp)]
    simp

theorem wordsAux_word_space : ∀ (w acc rest : List Char),
    (∀ c ∈ w, isPySpace c = false) → acc.reverse ++ w ≠ [] →
    wordsAux (w ++ ' ' :: rest) acc = (acc.reverse ++ w) :: wordsAux rest [] := by
  intro w
  induction w with
  | nil =>
    intro acc rest _ hne
    have hacc : acc ≠ [] := by
      intro h; apply hne; simp [h]
    simp [wordsAux, hacc, isPySpace]
  | cons c w' ih =>
    intro acc rest hw _
    have hc : isPySpace c = false := hw c (List.mem_cons_self _ _)
    have heq : wordsAux ((c :: w') ++ ' ' :: rest) acc
        = wordsAux (w' ++ ' ' :: rest) (c :: acc) := by
      simp [wordsAux, hc]
    rw [heq, ih (c :: acc) rest (fun c' hc' => hw c' (List.mem_cons_of_mem _ hc'))
      (by simp)]
    simp

theorem intercalate_cons₂ {α : Type} (sep x y : List α) (zs : List (List α)) :
    List.intercalate sep (x :: y :: zs) = x ++ sep ++ List.intercalate sep (y :: zs) := by
  simp [List.intercalate, List.intersperse, List.append_assoc]

theorem pyWords_intercalate : ∀ (ws : List Str),
    (∀ w ∈ ws, w ≠ [] ∧ ∀ c ∈ w, isPySpace c = false) →
    pyWords (List.intercalate [' '] ws) = ws := by
  intro ws
  induction ws with
  | nil => intro _; simp [List.intercalate, pyWords, wordsAux]
  | cons w ws ih =>
    intro h
    cases ws with
    | nil =>
      have hw := h w (List.mem_cons_self _ _)
      have hsingle : List.intercalate [' '] [w] = w := by
        simp [List.intercalate, List.intersperse]
      rw [hsingle]
      exact (by simpa using wordsAux_all_nonspace w [] hw.2 (by simpa using hw.1))
    | cons w' ws' =>
      rw [intercalate_cons₂]
      have hw := h w (List.mem_cons_self _ _)
      have step := wordsAux_word_space w [] (List.intercalate [' '] (w' :: ws'))
        hw.2 (by simpa using hw.1)
      simp only [pyWords, List.append_assoc, List.cons_append, List.nil_append] at step ⊢
      rw [step]
      have := ih (fun v hv => h v (List.mem_cons_of_mem _ hv))
      simp only [pyWords] at this
      rw [this]
      simp

theorem pyWords_intercalate_take (t : Str) (n : Nat) :
    pyWords (List.intercalate [' '] ((pyWords t).take n)) = (pyWords t).take n := by
  refine pyWords_intercalate _ ?_
  intro w hw
  exact pyWords_chunks t w (List.take_subset n _ hw)

theorem count_words_intercalate_take (t : Str) (n : Nat) :
    count_words (List.intercalate [' '] ((pyWords t).take n)) =
      min n (count_words t) := by
  simp [count_words, pyWords_intercalate_take]

theorem pyWords_normalize (t : Str) :
    pyWords (List.intercalate [' '] (pyWords t)) = pyWords t :=
  pyWords_intercalate _ (pyWords_chunks t)

/-! ### Lemmas about `splitOnSub` (Python `str.split(sep)`) -/

theorem isPrefixOf_iff : ∀ (p l : List Char), p.isPrefixOf l = true ↔ ∃ t, l = p ++ t := by
  intro p
  induction p with
  | nil => intro l; simp [List.isPrefixOf]
  | cons a as ih =>
    intro l
    cases l with
    | nil => simp [List.isPrefixOf]
    | cons b bs =>
      simp only [List.isPrefixOf, Bool.and_eq_true, beq_iff_eq, ih bs]
      constructor
      · rintro ⟨rfl, t, rfl⟩; exact ⟨t, rfl⟩
      · rintro ⟨t, ht⟩
        rw [List.cons_append] at ht
        obtain ⟨rfl, rfl⟩ := List.cons.inj ht
        exact ⟨rfl, t, rfl⟩

/-- Whether `sep` occurs as a contiguous substring (Python `sep in s`). -/
def containsSub (sep : List Char) : List Char → Bool
  | [] => sep.isEmpty
  | c :: cs => sep.isPrefixOf (c :: cs) || containsSub sep cs

theorem containsSub_iff : ∀ (sep l : List Char),
    containsSub sep l = true ↔ ∃ pre post, l = pre ++ sep ++ post := by
  intro sep l
  induction l with
  | nil =>
    simp only [containsSub, List.isEmpty_iff]
    constructor
    · rintro rfl; exact ⟨[], [], rfl⟩
    · rintro ⟨pre, post, h⟩
      rcases List.append_eq_nil.mp h.symm with ⟨h1, h2⟩
      exact (List.append_eq_nil.mp h1).2
  | cons c cs ih =>
    simp only [containsSub, Bool.or_eq_true, ih, isPrefixOf_iff]
    constructor
    · rintro (⟨t, ht⟩ | ⟨pre, post, hp⟩)
      · exact ⟨[], t, by simp [ht]⟩
      · exact ⟨c :: pre, post, by simp [hp]⟩
    · rintro ⟨pre, post, hp⟩
      cases pre with
      | nil => exact Or.inl ⟨post, by simpa using hp⟩
      | cons p ps =>
        right
        refine ⟨ps, post, ?_⟩
        simpa using List.cons.inj hp |>.2

theorem splitOnFuel_ne_nil (sep : List Char) :
    ∀ (f : Nat) (s acc : List Char), splitOnFuel sep f s acc ≠ [] := by
  intro f
  induction f with
  | zero => intro s acc; cases s <;> simp [splitOnFuel]
  | succ f ih =>
    intro s acc
    cases s with
    | nil => simp [splitOnFuel]
    | cons c cs =>
      by_cases h : sep ≠ [] ∧ sep.isPrefixOf (c :: cs)
      · simp only [splitOnFuel, if_pos h]
        simp
      · simp only [splitOnFuel, if_neg h]
        exact ih cs (c :: acc)

theorem splitOnFuel_fuel_irrel (sep : List Char) :
    ∀ (f₁ f₂ : Nat) (s acc : List Char), s.length ≤ f₁ → s.length ≤ f₂ →
    splitOnFuel sep f₁ s acc = splitOnFuel sep f₂ s acc := by
  intro f₁
  induction f₁ with
  | zero =>
    intro f₂ s acc h1 _
    have : s = [] := List.eq_nil_of_length_eq_zero (Nat.le_zero.mp h1)
    subst this
    cases f₂ <;> simp [splitOnFuel]
  | succ f₁ ih =>
    intro f₂ s acc h1 h2
    cases s with
    | nil => cases f₂ <;> simp [splitOnFuel]
    | cons c cs =>
      cases f₂ with
      | zero => simp at h2
      | succ f₂ =>
        simp only [List.length_cons] at h1 h2
        by_cases h : sep ≠ [] ∧ sep.isPrefixOf (c :: cs)
        · simp only [splitOnFuel, if_pos h]
          congr 1
          have hsep : 1 ≤ sep.length := by
            cases hs : sep with
            | nil => exact absurd hs h.1
            | cons _ _ => simp
          refine ih f₂ _ [] ?_ ?_ <;>
            simp only [List.length_drop, List.length_cons] <;> omega
        · simp only [splitOnFuel, if_neg h]
          refine ih f₂ cs (c :: acc) ?_ ?_ <;> omega

theorem intercalate_single {α : Type} (sep x : List α) :
    List.intercalate sep [x] = x := by
  simp [List.intercalate, List.intersperse]

theorem intercalate_cons_ne {α : Type} (sep x : List α) (l : List (List α)) (h : l ≠ []) :
    List.intercalate sep (x :: l) = x ++ sep ++ List.intercalate sep l := by
  obtain ⟨y, ys, rfl⟩ := List.exists_cons_of_ne_nil h
  exact intercalate_cons₂ sep x y ys

theorem intercalate_splitOnFuel (sep : List Char) :
    ∀ (f : Nat) (s acc : List Char),
    List.intercalate sep (splitOnFuel sep f s acc) = acc.reverse ++ s := by
  intro f
  induction f with
  | zero =>
    intro s acc
    cases s <;> simp [splitOnFuel, intercalate_single]
  | succ f ih =>
    intro s acc
    cases s with
    | nil => simp [splitOnFuel, intercalate_single]
    | cons c cs =>
      by_cases h : sep ≠ [] ∧ sep.isPrefixOf (c :: cs)
      · simp only [splitOnFuel, if_pos h]
        rw [intercalate_cons_ne sep _ _ (splitOnFuel_ne_nil sep f _ []), ih]
        obtain ⟨t, ht⟩ := (isPrefixOf_iff sep (c :: cs)).mp h.2
        rw [ht, List.drop_left]
        simp [List.append_assoc]
      · simp only [splitOnFuel, if_neg h]
        rw [ih]
        simp

theorem intercalate_splitOnSub (sep s : Str) (h : sep ≠ []) :
    List.intercalate sep (splitOnSub sep s) = s := by
  simp only [splitOnSub, if_neg h]
  simpa using intercalate_splitOnFuel sep s.length s []

theorem splitOnFuel_no_occurrence (sep : List Char) :
    ∀ (f : Nat) (s acc : List Char), (∀ pre post, s ≠ pre ++ sep ++ post) →
    splitOnFuel sep f s acc = [acc.reverse ++ s] := by
  intro f
  induction f with
  | zero => intro s acc _; cases s <;> simp [splitOnFuel]
  | succ f ih =>
    intro s acc hno
    cases s with
    | nil => simp [splitOnFuel]
    | cons c cs =>
      have hnp : ¬(sep ≠ [] ∧ sep.isPrefixOf (c :: cs)) := by
        rintro ⟨_, hp⟩
        obtain ⟨t, ht⟩ := (isPrefixOf_iff sep (c :: cs)).mp hp
        exact hno [] t (by simpa using ht)
      simp only [splitOnFuel, if_neg hnp]
      rw [ih cs (c :: acc) (fun pre post hcs => hno (c :: pre) post (by simp [hcs]))]
      simp

theorem splitOnSub_no_occurrence (sep s : Str) (h : containsSub sep s = false) :
    splitOnSub sep s = [s] := by
  have hno : ∀ pre post, s ≠ pre ++ sep ++ post := by
    intro pre post hs
    have : containsSub sep s = true := (containsSub_iff sep s).mpr ⟨pre, post, hs⟩
    rw [h] at this
    exact Bool.false_ne_true this
  by_cases hsep : sep = []
  · simp [splitOnSub, hsep]
  · simp only [splitOnSub, if_neg hsep]
    simpa using splitOnFuel_no_occurrence sep s.length s [] hno

theorem splitOnFuel_digits (r : Str) :
    ∀ (n : Str) (f : Nat) (acc : List Char),
    (∀ c ∈ n, c.isDigit = true) → (n ++ str ". " ++ r).length ≤ f →
    splitOnFuel (str ". ") f (n ++ str ". " ++ r) acc =
      (acc.reverse ++ n) :: splitOnFuel (str ". ") r.length r [] := by
  intro n
  induction n with
  | nil =>
    intro f acc _ hf
    have hstr : (str ". " : List Char) = ['.', ' '] := rfl
    rw [hstr] at hf ⊢
    simp only [List.nil_append, List.cons_append] at hf ⊢
    cases f with
    | zero => simp at hf
    | succ f =>
      have hcond : (['.', ' '] : List Char) ≠ [] ∧
          (['.', ' '] : List Char).isPrefixOf ('.' :: ' ' :: r) = true :=
        ⟨by simp, (isPrefixOf_iff _ _).mpr ⟨r, rfl⟩⟩
      simp only [splitOnFuel, if_pos hcond]
      congr 1
      · simp
      · have hdrop : List.drop (['.', ' '] : List Char).length ('.' :: ' ' :: r) = r := rfl
        rw [hdrop]
        refine splitOnFuel_fuel_irrel _ f r.length r [] ?_ ?_ <;>
          simp only [List.length_cons] at hf ⊢ <;> omega
  | cons d n' ih =>
    intro f acc hd hf
    cases f with
    | zero => simp at hf
    | succ f =>
      have hnp : ¬((str ". " : List Char) ≠ [] ∧
          (str ". ").isPrefixOf (d :: (n' ++ str ". " ++ r))) := by
        rintro ⟨_, hp⟩
        obtain ⟨t, ht⟩ := (isPrefixOf_iff _ _).mp hp
        have : d = '.' := by
          have := List.cons.inj (by simpa [str] using ht)
          exact this.1
        have hdig := hd d (List.mem_cons_self _ _)
        rw [this] at hdig
        simp at hdig
      have hcons : (d :: n') ++ str ". " ++ r = d :: (n' ++ str ". " ++ r) := by simp
      rw [hcons]
      simp only [splitOnFuel, if_neg hnp]
      rw [ih f (d :: acc) (fun c hc => hd c (List.mem_cons_of_mem _ hc))
        (by simp at hf ⊢; omega)]
      simp

/-- First-piece-dropping form used by `enhance_line` on an ordinal line:
for a line `n ++ ". " ++ r` whose prefix `n` is all digits,
`". ".join(q.split(". ")[1:])` is exactly `r`. -/
theorem ordinal_strip (n r : Str) (hn : ∀ c ∈ n, c.isDigit = true) :
    List.intercalate (str ". ")
      ((splitOnSub (str ". ") (n ++ str ". " ++ r)).drop 1) = r := by
  have hsep : (str ". " : List Char) ≠ [] := by simp [str]
  simp only [splitOnSub, if_neg hsep]
  rw [splitOnFuel_digits r n _ [] hn (Nat.le_refl _)]
  simp only [List.drop_succ_cons, List.drop_zero]
  simpa using intercalate_splitOnFuel (str ". ") r.length r []

/-! ### Lemmas about `removeTags` (the `re.sub(r'<[^>]*>', '', ·)` model) -/

/-- Whether the string contains a `>` at all. -/
def hasGt (cs : List Char) : Bool := cs.any (fun c => c = '>')

/-- Whether the string contains a substring matching `<[^>]*>` — by the
scan below, equivalently a `<` with some later `>`. -/
def hasTag : List Char → Bool
  | [] => false
  | c :: rest => if c = '<' then hasGt rest || hasTag rest else hasTag rest

theorem noGt_noTag : ∀ (cs : List Char), hasGt cs = false → hasTag cs = false := by
  intro cs
  induction cs with
  | nil => intro _; rfl
  | cons c rest ih =>
    intro h
    simp only [hasGt, List.any_cons, Bool.or_eq_false_iff] at h
    simp only [hasTag]
    by_cases hc : c = '<'
    · rw [if_pos hc]
      have : hasGt rest = false := h.2
      simp [this, ih this]
    · rw [if_neg hc]
      exact ih h.2

theorem stripTagsAux_noTag : ∀ (s : List Char) (st : Option (List Char)),
    (∀ buf, st = some buf → '>' ∉ buf) → hasTag (stripTagsAux s st) = false := by
  intro s
  induction s with
  | nil =>
    intro st hst
    cases st with
    | none => rfl
    | some buf =>
      have hbuf : '>' ∉ buf := hst buf rfl
      simp only [stripTagsAux]
      apply noGt_noTag
      simp only [hasGt]
      rw [List.any_eq_false]
      intro x hx
      simp only [List.mem_reverse] at hx
      simp only [decide_eq_true_eq]
      rintro rfl
      exact hbuf hx
  | cons c cs ih =>
    intro st hst
    cases st with
    | none =>
      by_cases hc : c = '<'
      · simp only [stripTagsAux, if_pos hc]
        refine ih (some [c]) ?_
        rintro buf h hm
        obtain rfl := Option.some.inj h
        rw [hc] at hm
        simp at hm
      · simp only [stripTagsAux, if_neg hc]
        simp only [hasTag, if_neg hc]
        exact ih none (by simp)
    | some buf =>
      by_cases hc : c = '>'
      · simp only [stripTagsAux, if_pos hc]
        exact ih none (by simp)
      · simp only [stripTagsAux, if_neg hc]
        refine ih (some (c :: buf)) ?_
        rintro buf' h hm
        obtain rfl := Option.some.inj h
        rcases List.mem_cons.mp hm with h' | h'
        · exact hc h'.symm
        · exact hst buf rfl h'

theorem hasTag_removeTags (s : Str) : hasTag (removeTags s) = false :=
  stripTagsAux_noTag s none (by simp)

theorem stripTagsAux_subset : ∀ (s : List Char) (st : Option (List Char)) (c : Char),
    c ∈ stripTagsAux s st → c ∈ s ∨ ∃ buf, st = some buf ∧ c ∈ buf := by
  intro s
  induction s with
  | nil =>
    intro st c hc
    cases st with
    | none => simp [stripTagsAux] at hc
    | some buf =>
      simp only [stripTagsAux] at hc
      exact Or.inr ⟨buf, rfl, by simpa using hc⟩
  | cons a cs ih =>
    intro st c hc
    cases st with
    | none =>
      by_cases ha : a = '<'
      · simp only [stripTagsAux, if_pos ha] at hc
        rcases ih (some [a]) c hc with h | ⟨buf, hbuf, hm⟩
        · exact Or.inl (List.mem_cons_of_mem _ h)
        · obtain rfl := Option.some.inj hbuf
          simp at hm
          exact Or.inl (by simp [hm])
      · simp only [stripTagsAux, if_neg ha] at hc
        rcases List.mem_cons.mp hc with h | h
        · exact Or.inl (by simp [h])
        · rcases ih none c h with h' | ⟨buf, hbuf, _⟩
          · exact Or.inl (List.mem_cons_of_mem _ h')
          · simp at hbuf
    | some buf =>
      by_cases ha : a = '>'
      · simp only [stripTagsAux, if_pos ha] at hc
        rcases ih none c hc with h | ⟨buf', hbuf, _⟩
        · exact Or.inl (List.mem_cons_of_mem _ h)
        · simp at hbuf
      · simp only [stripTagsAux, if_neg ha] at hc
        rcases ih (some (a :: buf)) c hc with h | ⟨buf', hbuf, hm⟩
        · exact Or.inl (List.mem_cons_of_mem _ h)
        · obtain rfl := Option.some.inj hbuf
          rcases List.mem_cons.mp hm with h' | h'
          · exact Or.inl (by simp [h'])
          · exact Or.inr ⟨buf, rfl, h'⟩

theorem removeTags_subset (s : Str) (c : Char) (h : c ∈ removeTags s) : c ∈ s := by
  rcases stripTagsAux_subset s none c h with h' | ⟨buf, hbuf, _⟩
  · exact h'
  · simp at hbuf

theorem hasTag_of_decomp : ∀ (l₁ l₂ l₃ : List Char),
    hasTag (l₁ ++ ('<' :: (l₂ ++ ('>' :: l₃)))) = true := by
  intro l₁
  induction l₁ with
  | nil =>
    intro l₂ l₃
    simp only [List.nil_append, hasTag, if_pos rfl]
    simp [hasGt]
  | cons a l₁ ih =>
    intro l₂ l₃
    simp only [List.cons_append, hasTag]
    by_cases ha : a = '<'
    · rw [if_pos ha]
      simp [hasGt]
    · rw [if_neg ha]
      exact ih l₂ l₃

theorem noTag_decomp (s : Str) (h : hasTag s = false) :
    ∀ l₁ l₂ l₃, s ≠ l₁ ++ ('<' :: (l₂ ++ ('>' :: l₃))) := by
  intro l₁ l₂ l₃ hs
  rw [hs, hasTag_of_decomp] at h
  simp at h

theorem removeQuotes_no_quote (s : Str) : '"' ∉ removeQuotes s := by
  intro h
  simp [removeQuotes] at h

/-! ### Lemmas about `everyOther` (Python `l[::2]`) -/

theorem everyOther_length : ∀ (l : List Str), (everyOther l).length = (l.length + 1) / 2 := by
  intro l
  induction l using everyOther.induct with
  | case1 => simp [everyOther]
  | case2 x => simp [everyOther]
  | case3 x y rest ih =>
    simp only [everyOther, List.length_cons, ih]
    omega

theorem everyOther_getElem? : ∀ (l : List Str) (i : Nat),
    (everyOther l)[i]? = l[2 * i]? := by
  intro l
  induction l using everyOther.induct with
  | case1 => intro i; simp [everyOther]
  | case2 x =>
    intro i
    cases i with
    | zero => simp [everyOther]
    | succ i =>
      simp only [everyOther]
      rw [show 2 * (i + 1) = 2 * i + 1 + 1 by omega]
      simp
  | case3 x y rest ih =>
    intro i
    cases i with
    | zero => simp [everyOther]
    | succ i =>
      simp only [everyOther]
      rw [show 2 * (i + 1) = 2 * i + 1 + 1 by omega]
      simp only [List.getElem?_cons_succ]
      exact ih i

theorem everyOther_subset : ∀ (l : List Str) (x : Str), x ∈ everyOther l → x ∈ l := by
  intro l
  induction l using everyOther.induct with
  | case1 => intro x hx; simp [everyOther] at hx
  | case2 y => intro x hx; simpa [everyOther] using hx
  | case3 y z rest ih =>
    intro x hx
    simp only [everyOther] at hx
    rcases List.mem_cons.mp hx with h | h
    · simp [h]
    · simp [List.mem_cons_of_mem _ (ih x h)]

/-! ### Lemmas about `select_docs` -/

theorem contains_iff (l : List Str) (x : Str) : l.contains x = true ↔ x ∈ l := by
  simp [List.contains_iff_exists_mem_beq]

theorem foldl_insertOrUpdate_fresh : ∀ (docs : List Document) (m : List (Str × Nat)),
    (∀ d ∈ docs, ∀ p ∈ m, p.1 ≠ d.url) → (docs.map Document.url).Nodup →
    docs.foldl (fun m d => insertOrUpdate m d.url (count_words d.text)) m
      = m ++ docs.map (fun d => (d.url, count_words d.text)) := by
  intro docs
  induction docs with
  | nil => intro m _ _; simp
  | cons d ds ih =>
    intro m hfresh hnodup
    simp only [List.map_cons, List.nodup_cons] at hnodup
    simp only [List.foldl_cons]
    have hany : m.any (fun p => p.1 = d.url) = false := by
      rw [List.any_eq_false]
      intro p hp
      simp only [decide_eq_true_eq]
      exact hfresh d (List.mem_cons_self _ _) p hp
    have hupd : insertOrUpdate m d.url (count_words d.text)
        = m ++ [(d.url, count_words d.text)] := by
      simp only [insertOrUpdate, hany]
      simp
    rw [hupd, ih]
    · simp
    · intro d' hd' p hp
      rcases List.mem_append.mp hp with h | h
      · exact hfresh d' (List.mem_cons_of_mem _ hd') p h
      · have hp1 : p.1 = d.url := by simp at h; simp [h]
        rw [hp1]
        intro hurl
        exact hnodup.1 (hurl ▸ List.mem_map_of_mem Document.url hd')
    · exact hnodup.2

theorem wordCounts_eq (docs : List Document) (h : (docs.map Document.url).Nodup) :
    wordCounts docs = docs.map (fun d => (d.url, count_words d.text)) := by
  simpa using foldl_insertOrUpdate_fresh docs [] (by simp) h

theorem lookupWC_of_mem : ∀ (docs : List Document) (d : Document),
    (docs.map Document.url).Nodup → d ∈ docs →
    lookupWC (docs.map (fun d => (d.url, count_words d.text))) d.url
      = count_words d.text := by
  intro docs
  induction docs with
  | nil => intro d _ hd; simp at hd
  | cons e ds ih =>
    intro d hnodup hd
    simp only [List.map_cons, List.nodup_cons] at hnodup
    rcases List.mem_cons.mp hd with rfl | hd'
    · simp only [lookupWC, List.map_cons]
      rw [List.find?_cons_of_pos _ (by simp)]
    · have hne : ¬(e.url = d.url) := by
        intro h
        exact hnodup.1 (h ▸ List.mem_map_of_mem Document.url hd')
      simp only [lookupWC, List.map_cons] at ih ⊢
      rw [List.find?_cons_of_neg _ (by simpa using hne)]
      exact ih d hnodup.2 hd'

theorem insertDesc_mem (m : List (Str × Nat)) (x : Str) :
    ∀ (l : List Str) (z : Str), z ∈ insertDesc m x l ↔ z = x ∨ z ∈ l := by
  intro l
  induction l with
  | nil => intro z; simp [insertDesc]
  | cons y ys ih =>
    intro z
    by_cases h : lookupWC m y < lookupWC m x
    · simp only [insertDesc, if_pos h, List.mem_cons]
    · simp only [insertDesc, if_neg h, List.mem_cons, ih]
      tauto

theorem insertDesc_nodup (m : List (Str × Nat)) (x : Str) :
    ∀ (l : List Str), x ∉ l → l.Nodup → (insertDesc m x l).Nodup := by
  intro l
  induction l with
  | nil => intro _ _; simp [insertDesc]
  | cons y ys ih =>
    intro hx hl
    simp only [List.nodup_cons] at hl
    by_cases h : lookupWC m y < lookupWC m x
    · simp only [insertDesc, if_pos h, List.nodup_cons]
      refine ⟨?_, hl.1, hl.2⟩
      simpa using hx
    · simp only [insertDesc, if_neg h, List.nodup_cons]
      constructor
      · rw [insertDesc_mem]
        rintro (rfl | h')
        · exact hx (List.mem_cons_self _ _)
        · exact hl.1 h'
      · exact ih (fun h' => hx (List.mem_cons_of_mem _ h')) hl.2

theorem insertDesc_pairwise (m : List (Str × Nat)) (x : Str) :
    ∀ (l : List Str), l.Pairwise (fun a b => lookupWC m b ≤ lookupWC m a) →
    (insertDesc m x l).Pairwise (fun a b => lookupWC m b ≤ lookupWC m a) := by
  intro l
  induction l with
  | nil => intro _; simp [insertDesc]
  | cons y ys ih =>
    intro hl
    rw [List.pairwise_cons] at hl
    by_cases h : lookupWC m y < lookupWC m x
    · simp only [insertDesc, if_pos h]
      rw [List.pairwise_cons]
      refine ⟨?_, List.pairwise_cons.mpr hl⟩
      intro z hz
      rcases List.mem_cons.mp hz with rfl | hz'
      · exact Nat.le_of_lt h
      · exact Nat.le_trans (hl.1 z hz') (Nat.le_of_lt h)
    · simp only [insertDesc, if_neg h]
      rw [List.pairwise_cons]
      constructor
      · intro z hz
        rcases (insertDesc_mem m x ys z).mp hz with rfl | hz'
        · exact Nat.le_of_not_lt h
        · exact hl.1 z hz'
      · exact ih hl.2

theorem foldl_insertDesc_mem (m : List (Str × Nat)) :
    ∀ (keys acc : List Str) (z : Str),
    z ∈ keys.foldl (fun acc k => insertDesc m k acc) acc ↔ z ∈ acc ∨ z ∈ keys := by
  intro keys
  induction keys with
  | nil => intro acc z; simp
  | cons k ks ih =>
    intro acc z
    simp only [List.foldl_cons, ih, insertDesc_mem, List.mem_cons]
    tauto

theorem sortKeysDesc_mem (m : List (Str × Nat)) (keys : List Str) (z : Str) :
    z ∈ sortKeysDesc m keys ↔ z ∈ keys := by
  simpa [sortKeysDesc] using foldl_insertDesc_mem m keys [] z

theorem foldl_insertDesc_nodup (m : List (Str × Nat)) :
    ∀ (keys acc : List Str), acc.Nodup → keys.Nodup → (∀ k ∈ keys, k ∉ acc) →
    (keys.foldl (fun acc k => insertDesc m k acc) acc).Nodup := by
  intro keys
  induction keys with
  | nil => intro acc h _ _; simpa using h
  | cons k ks ih =>
    intro acc hacc hkeys hfresh
    simp only [List.nodup_cons] at hkeys
    simp only [List.foldl_cons]
    refine ih _ (insertDesc_nodup m k acc (hfresh k (List.mem_cons_self _ _)) hacc)
      hkeys.2 ?_
    intro k' hk' hmem
    rcases (insertDesc_mem m k acc k').mp hmem with rfl | h
    · exact hkeys.1 hk'
    · exact hfresh k' (List.mem_cons_of_mem _ hk') h

theorem sortKeysDesc_nodup (m : List (Str × Nat)) (keys : List Str) (h : keys.Nodup) :
    (sortKeysDesc m keys).Nodup :=
  foldl_insertDesc_nodup m keys [] (by simp) h (by simp)

theorem foldl_insertDesc_pairwise (m : List (Str × Nat)) :
    ∀ (keys acc : List Str),
    acc.Pairwise (fun a b => lookupWC m b ≤ lookupWC m a) →
    (keys.foldl (fun acc k => insertDesc m k acc) acc).Pairwise
      (fun a b => lookupWC m b ≤ lookupWC m a) := by
  intro keys
  induction keys with
  | nil => intro acc h; simpa using h
  | cons k ks ih =>
    intro acc hacc
    simp only [List.foldl_cons]
    exact ih _ (insertDesc_pairwise m k acc hacc)

theorem sortKeysDesc_pairwise (m : List (Str × Nat)) (keys : List Str) :
    (sortKeysDesc m keys).Pairwise (fun a b => lookupWC m b ≤ lookupWC m a) :=
  foldl_insertDesc_pairwise m keys [] (by simp)

theorem selectLoop_length (m : List (Str × Nat)) :
    ∀ (us acc : List Str), acc.length < 4 → (selectLoop m us acc).length ≤ 4 := by
  intro us
  induction us with
  | nil => intro acc h; simpa [selectLoop] using Nat.le_of_lt h
  | cons u us ih =>
    intro acc h
    by_cases h60 : 60 ≤ lookupWC m u
    · simp only [selectLoop, if_pos h60]
      by_cases h4 : (acc ++ [u]).length = 4
      · rw [if_pos h4]; omega
      · rw [if_neg h4]
        refine ih _ ?_
        simp only [List.length_append, List.length_cons, List.length_nil] at h4 ⊢
        omega
    · simp only [selectLoop, if_neg h60]
      by_cases h4 : acc.length = 4
      · rw [if_pos h4]; omega
      · rw [if_neg h4]; exact ih _ (by omega)

theorem selectLoop_sixty (m : List (Str × Nat)) :
    ∀ (us acc : List Str) (u' : Str), u' ∈ selectLoop m us acc →
    u' ∈ acc ∨ (u' ∈ us ∧ 60 ≤ lookupWC m u') := by
  intro us
  induction us with
  | nil => intro acc u' h; exact Or.inl (by simpa [selectLoop] using h)
  | cons u us ih =>
    intro acc u' h
    by_cases h60 : 60 ≤ lookupWC m u
    · simp only [selectLoop, if_pos h60] at h
      by_cases h4 : (acc ++ [u]).length = 4
      · rw [if_pos h4] at h
        rcases List.mem_append.mp h with h' | h'
        · exact Or.inl h'
        · simp at h'
          exact Or.inr ⟨by simp [h'], h' ▸ h60⟩
      · rw [if_neg h4] at h
        rcases ih _ u' h with h' | h'
        · rcases List.mem_append.mp h' with h'' | h''
          · exact Or.inl h''
          · simp at h''
            exact Or.inr ⟨by simp [h''], h'' ▸ h60⟩
        · exact Or.inr ⟨List.mem_cons_of_mem _ h'.1, h'.2⟩
    · simp only [selectLoop, if_neg h60] at h
      by_cases h4 : acc.length = 4
      · rw [if_pos h4] at h
        exact Or.inl h
      · rw [if_neg h4] at h
        rcases ih _ u' h with h' | h'
        · exact Or.inl h'
        · exact Or.inr ⟨List.mem_cons_of_mem _ h'.1, h'.2⟩

theorem selectLoop_mono (m : List (Str × Nat)) :
    ∀ (us acc : List Str) (x : Str), x ∈ acc → x ∈ selectLoop m us acc := by
  intro us
  induction us with
  | nil => intro acc x h; simpa [selectLoop] using h
  | cons u us ih =>
    intro acc x h
    by_cases h60 : 60 ≤ lookupWC m u
    · simp only [selectLoop, if_pos h60]
      by_cases h4 : (acc ++ [u]).length = 4
      · rw [if_pos h4]; exact List.mem_append_left _ h
      · rw [if_neg h4]; exact ih _ x (List.mem_append_left _ h)
    · simp only [selectLoop, if_neg h60]
      by_cases h4 : acc.length = 4
      · rw [if_pos h4]; exact h
      · rw [if_neg h4]; exact ih _ x h

theorem selectLoop_before (m : List (Str × Nat)) :
    ∀ (us₁ : List Str) (b : Str) (us₂ acc : List Str) (a : Str),
    60 ≤ lookupWC m b → a ∈ selectLoop m (us₁ ++ b :: us₂) acc →
    a ∉ acc → a ∉ us₁ → a ≠ b →
    b ∈ selectLoop m (us₁ ++ b :: us₂) acc := by
  intro us₁
  induction us₁ with
  | nil =>
    intro b us₂ acc a hb ha hacc _ _
    simp only [List.nil_append] at ha ⊢
    simp only [selectLoop, if_pos hb] at ha ⊢
    by_cases h4 : (acc ++ [b]).length = 4
    · rw [if_pos h4] at ha ⊢
      simp
    · rw [if_neg h4] at ha ⊢
      exact selectLoop_mono m us₂ _ b (by simp)
  | cons u us₁ ih =>
    intro b us₂ acc a hb ha hacc hus₁ hab
    simp only [List.cons_append] at ha ⊢
    have hau : a ≠ u := fun h => hus₁ (h ▸ List.mem_cons_self _ _)
    have hus₁' : a ∉ us₁ := fun h => hus₁ (List.mem_cons_of_mem _ h)
    by_cases h60 : 60 ≤ lookupWC m u
    · simp only [selectLoop, if_pos h60] at ha ⊢
      by_cases h4 : (acc ++ [u]).length = 4
      · rw [if_pos h4] at ha ⊢
        rcases List.mem_append.mp ha with h | h
        · exact absurd h hacc
        · simp at h
          exact absurd h hau
      · rw [if_neg h4] at ha ⊢
        refine ih b us₂ (acc ++ [u]) a hb ha ?_ hus₁' hab
        intro h
        rcases List.mem_append.mp h with h | h
        · exact hacc h
        · simp at h
          exact hau h
    · simp only [selectLoop, if_neg h60] at ha ⊢
      by_cases h4 : acc.length = 4
      · rw [if_pos h4] at ha ⊢
        exact absurd ha hacc
      · rw [if_neg h4] at ha ⊢
        exact ih b us₂ acc a hb ha hacc hus₁' hab

theorem sorted_before (m : List (Str × Nat)) (l : List Str) (hnd : l.Nodup)
    (hpw : l.Pairwise (fun x y => lookupWC m y ≤ lookupWC m x))
    (a b : Str) (ha : a ∈ l) (hb : b ∈ l) (hlt : lookupWC m a < lookupWC m b) :
    ∃ l₁ l₂, l = l₁ ++ b :: l₂ ∧ a ∈ l₂ ∧ a ∉ l₁ := by
  obtain ⟨s₁, s₂, rfl⟩ := List.append_of_mem ha
  rcases List.mem_append.mp hb with hb1 | hb2
  · obtain ⟨t₁, t₂, rfl⟩ := List.append_of_mem hb1
    refine ⟨t₁, t₂ ++ a :: s₂, by simp, by simp, ?_⟩
    intro hat
    rcases List.nodup_append.mp (by simpa using hnd) with ⟨_, _, hdisj⟩
    exact hdisj hat (by simp)
  · exfalso
    have hpw' : (a :: s₂).Pairwise (fun x y => lookupWC m y ≤ lookupWC m x) :=
      List.Pairwise.sublist (List.sublist_append_right s₁ (a :: s₂)) hpw
    rcases List.mem_cons.mp hb2 with rfl | hb3
    · exact Nat.lt_irrefl _ hlt
    · have := (List.pairwise_cons.mp hpw').1 b hb3
      omega

theorem docs_url_inj : ∀ (docs : List Document),
    (docs.map Document.url).Nodup →
    ∀ a ∈ docs, ∀ b ∈ docs, a.url = b.url → a = b := by
  intro docs
  induction docs with
  | nil => intro _ a ha; simp at ha
  | cons d ds ih =>
    intro hnd a ha b hb hab
    simp only [List.map_cons, List.nodup_cons] at hnd
    rcases List.mem_cons.mp ha with rfl | ha' <;> rcases List.mem_cons.mp hb with rfl | hb'
    · rfl
    · exact absurd (hab ▸ List.mem_map_of_mem Document.url hb') hnd.1
    · exact absurd (hab ▸ List.mem_map_of_mem Document.url ha') hnd.1
    · exact ih hnd.2 a ha' b hb' hab

/-- The sorted key list of `select_docs` (line 335), named for reasoning. -/
def sortedUrls (docs : List Document) : List Str :=
  sortKeysDesc (wordCounts docs) ((wordCounts docs).map Prod.fst)

/-- The `selected_urls` list of `select_docs` (lines 337-342), named for
reasoning. -/
def selectedUrls (docs : List Document) : List Str :=
  selectLoop (wordCounts docs) (sortedUrls docs) []

theorem select_docs_eq (docs : List Document) (n_docs min_words max_words : Nat) :
    select_docs docs n_docs min_words max_words =
      (docs.filter (fun d => (selectedUrls docs).contains d.url)).map
        (truncateDoc (wordCounts docs)) := rfl

theorem truncateDoc_url (m : List (Str × Nat)) (d : Document) :
    (truncateDoc m d).url = d.url := by
  unfold truncateDoc
  split <;> rfl

theorem wordCounts_keys (docs : List Document) (hnd : (docs.map Document.url).Nodup) :
    (wordCounts docs).map Prod.fst = docs.map Document.url := by
  rw [wordCounts_eq docs hnd, List.map_map]
  rfl

theorem lookupWC_wordCounts (docs : List Document) (hnd : (docs.map Document.url).Nodup)
    (d : Document) (hd : d ∈ docs) :
    lookupWC (wordCounts docs) d.url = count_words d.text := by
  rw [wordCounts_eq docs hnd]
  exact lookupWC_of_mem docs d hnd hd

theorem truncateDoc_text (docs : List Document) (hnd : (docs.map Document.url).Nodup)
    (d : Document) (hd : d ∈ docs) :
    (10000 < count_words d.text →
      (truncateDoc (wordCounts docs) d).text
        = List.intercalate [' '] ((pyWords d.text).take 10000)) ∧
    (count_words d.text ≤ 10000 → (truncateDoc (wordCounts docs) d).text = d.text) := by
  have hlk := lookupWC_wordCounts docs hnd d hd
  unfold truncateDoc
  rw [hlk]
  by_cases h : 10000 < count_words d.text
  · rw [if_pos h]
    exact ⟨fun _ => rfl, fun h' => absurd h (by omega)⟩
  · rw [if_neg h]
    exact ⟨fun h' => absurd h' h, fun _ => rfl⟩

theorem select_docs_members (docs : List Document) (n_docs min_words max_words : Nat)
    (hnd : (docs.map Document.url).Nodup) :
    ∀ d' ∈ select_docs docs n_docs min_words max_words,
      ∃ d ∈ docs, d' = truncateDoc (wordCounts docs) d ∧ 60 ≤ count_words d.text := by
  intro d' hd'
  rw [select_docs_eq] at hd'
  simp only [List.mem_map] at hd'
  obtain ⟨d, hdf, rfl⟩ := hd'
  have hd := List.mem_filter.mp hdf
  refine ⟨d, hd.1, rfl, ?_⟩
  have hurl : d.url ∈ selectedUrls docs := (contains_iff _ _).mp hd.2
  rcases selectLoop_sixty _ _ _ _ hurl with h | h
  · simp at h
  · have hlk := lookupWC_wordCounts docs hnd d hd.1
    rw [hlk] at h
    exact h.2

theorem select_docs_length_le (docs : List Document) (n_docs min_words max_words : Nat)
    (hnd : (docs.map Document.url).Nodup) :
    (select_docs docs n_docs min_words max_words).length ≤ 4 := by
  rw [select_docs_eq, List.length_map]
  have hsel_len : (selectedUrls docs).length ≤ 4 :=
    selectLoop_length _ _ [] (by simp)
  have hsub : (docs.filter (fun d => (selectedUrls docs).contains d.url)).map Document.url
      ⊆ selectedUrls docs := by
    intro u hu
    simp only [List.mem_map] at hu
    obtain ⟨d, hd, rfl⟩ := hu
    exact (contains_iff _ _).mp (List.mem_filter.mp hd).2
  have hndf : ((docs.filter (fun d => (selectedUrls docs).contains d.url)).map
      Document.url).Nodup :=
    List.Nodup.sublist (List.Sublist.map _ (List.filter_sublist docs)) hnd
  have hlen := List.Subperm.length_le (List.subperm_of_subset hndf hsub)
  rw [List.length_map] at hlen
  omega

theorem select_docs_min_words (docs : List Document) (n_docs min_words max_words : Nat)
    (hnd : (docs.map Document.url).Nodup) :
    ∀ d' ∈ select_docs docs n_docs min_words max_words, 60 ≤ count_words d'.text := by
  intro d' hd'
  obtain ⟨d, hd, rfl, h60⟩ := select_docs_members docs n_docs min_words max_words hnd d' hd'
  obtain ⟨htr, hid⟩ := truncateDoc_text docs hnd d hd
  by_cases h : 10000 < count_words d.text
  · rw [htr h, count_words_intercalate_take]
    omega
  · rw [hid (by omega)]
    exact h60

theorem mem_select_docs_of_selected (docs : List Document)
    (n_docs min_words max_words : Nat) (d : Document) (hd : d ∈ docs)
    (hsel : d.url ∈ selectedUrls docs) :
    truncateDoc (wordCounts docs) d ∈ select_docs docs n_docs min_words max_words := by
  rw [select_docs_eq]
  exact List.mem_map_of_mem _ (List.mem_filter.mpr ⟨hd, (contains_iff _ _).mpr hsel⟩)

theorem select_docs_prefers_aux (docs : List Document) (n_docs min_words max_words : Nat)
    (hnd : (docs.map Document.url).Nodup) (A B : Document)
    (hA : A ∈ docs) (hB : B ∈ docs)
    (hAB : count_words A.text < count_words B.text)
    (hApicked : ∃ dA ∈ select_docs docs n_docs min_words max_words, dA.url = A.url) :
    ∃ dB ∈ select_docs docs n_docs min_words max_words, dB.url = B.url := by
  have hkeys := wordCounts_keys docs hnd
  have hlkA := lookupWC_wordCounts docs hnd A hA
  have hlkB := lookupWC_wordCounts docs hnd B hB
  obtain ⟨dA, hdA, hdAu⟩ := hApicked
  rw [select_docs_eq] at hdA
  simp only [List.mem_map] at hdA
  obtain ⟨d₀, hd₀f, rfl⟩ := hdA
  have hd₀ := List.mem_filter.mp hd₀f
  rw [truncateDoc_url] at hdAu
  have hAsel : A.url ∈ selectedUrls docs := by
    have := (contains_iff _ _).mp hd₀.2
    rwa [hdAu] at this
  have hsnd : (sortedUrls docs).Nodup :=
    sortKeysDesc_nodup _ _ (by rw [hkeys]; exact hnd)
  have hspw := sortKeysDesc_pairwise (wordCounts docs) ((wordCounts docs).map Prod.fst)
  have hmemA : A.url ∈ sortedUrls docs := by
    rcases selectLoop_sixty _ _ _ _ hAsel with h | h
    · simp at h
    · exact h.1
  have hmemB : B.url ∈ sortedUrls docs := by
    rw [sortedUrls, sortKeysDesc_mem, hkeys]
    exact List.mem_map_of_mem _ hB
  have hltAB : lookupWC (wordCounts docs) A.url < lookupWC (wordCounts docs) B.url := by
    rw [hlkA, hlkB]; exact hAB
  obtain ⟨l₁, l₂, hdec, _, hal₁⟩ :=
    sorted_before (wordCounts docs) (sortedUrls docs) hsnd hspw A.url B.url
      hmemA hmemB hltAB
  have hne : A.url ≠ B.url := fun h => by rw [h] at hltAB; omega
  have hA60 : 60 ≤ lookupWC (wordCounts docs) A.url := by
    rcases selectLoop_sixty _ _ _ _ hAsel with h | h
    · simp at h
    · exact h.2
  have hB60 : 60 ≤ lookupWC (wordCounts docs) B.url := by omega
  have hAsel' : A.url ∈ selectLoop (wordCounts docs) (l₁ ++ B.url :: l₂) [] := by
    rw [selectedUrls, hdec] at hAsel
    exact hAsel
  have hBsel : B.url ∈ selectedUrls docs := by
    rw [selectedUrls, hdec]
    exact selectLoop_before (wordCounts docs) l₁ B.url l₂ [] A.url hB60 hAsel'
      (by simp) hal₁ hne
  exact ⟨truncateDoc (wordCounts docs) B,
    mem_select_docs_of_selected docs n_docs min_words max_words B hB hBsel,
    truncateDoc_url _ _⟩

/-! ### Concrete inputs for counterexamples and witnesses -/

/-- A 50-word text. -/
def words50 : Str := List.intercalate [' '] (List.replicate 50 ['w'])

/-- A 60-word text (exactly at the acceptance threshold). -/
def words60 : Str := List.intercalate [' '] (List.replicate 60 ['w'])

/-- A 70-word text. -/
def words70 : Str := List.intercalate [' '] (List.replicate 70 ['w'])

/-- Five documents sharing one URL, each with 60 words. -/
def c1Docs : List Document := List.replicate 5 ⟨words60, str "u"⟩

/-- Two documents sharing one URL: 50 words and 70 words. -/
def c2Docs : List Document := [⟨words50, str "u"⟩, ⟨words70, str "u"⟩]

/-- Two documents with distinct URLs: 50 and 70 words. -/
def c2wDocs : List Document := [⟨words50, str "a"⟩, ⟨words70, str "b"⟩]

/-- Two qualifying documents with distinct URLs: 60 and 70 words. -/
def wDocsAB : List Document := [⟨words60, str "a"⟩, ⟨words70, str "b"⟩]

/-- Documents where a third document shadows B's URL in the word-count
dict: A qualifies with 60 words, B qualifies with 70 words, but the
1-word document at B's URL overwrites B's recorded count. -/
def c3Docs : List Document :=
  [⟨words60, str "a"⟩, ⟨words70, str "b"⟩, ⟨['x'], str "b"⟩]

/-! ### C1 -/

/-- C1 counterexample: the claim quantifies over *every* input list, but
`select_docs` keys its word counts by URL, so five 60-word documents
sharing one URL are all returned — the result has 5 documents, not at
most 4. -/
theorem select_docs_c1_counterexample :
    ¬ (select_docs c1Docs 5 100 10000).length ≤ 4 := by decide

/-- C1 (amended with pairwise-distinct URLs): for every input list of
documents with pairwise-distinct URLs and every `n_docs` (and any
`min_words`/`max_words` arguments), `select_docs` returns at most 4
documents, every returned document has word count ≥ 60, and every
returned document comes from an input document with the same URL whose
text it preserves, except that a document whose word count exceeded
10000 has its text replaced by exactly its first 10000
whitespace-delimited tokens. -/
theorem select_docs_c1_amended (docs : List Document)
    (n_docs min_words max_words : Nat)
    (hnd : (docs.map Document.url).Nodup) :
    (select_docs docs n_docs min_words max_words).length ≤ 4 ∧
    (∀ d' ∈ select_docs docs n_docs min_words max_words,
      60 ≤ count_words d'.text) ∧
    (∀ d' ∈ select_docs docs n_docs min_words max_words, ∃ d ∈ docs,
      d'.url = d.url ∧
      (10000 < count_words d.text →
        d'.text = List.intercalate [' '] ((pyWords d.text).take 10000)) ∧
      (count_words d.text ≤ 10000 → d'.text = d.text)) := by
  refine ⟨select_docs_length_le docs n_docs min_words max_words hnd,
    select_docs_min_words docs n_docs min_words max_words hnd, ?_⟩
  intro d' hd'
  obtain ⟨d, hd, rfl, _⟩ :=
    select_docs_members docs n_docs min_words max_words hnd d' hd'
  obtain ⟨htr, hid⟩ := truncateDoc_text docs hnd d hd
  exact ⟨d, hd, truncateDoc_url _ _, htr, hid⟩

/-- Witness for C1 (amended) at two distinct-URL documents of 60 and 70
words. -/
theorem select_docs_c1_amended_witness :
    (select_docs wDocsAB 5 100 10000).length ≤ 4 ∧
    (∀ d' ∈ select_docs wDocsAB 5 100 10000, 60 ≤ count_words d'.text) ∧
    (∀ d' ∈ select_docs wDocsAB 5 100 10000, ∃ d ∈ wDocsAB,
      d'.url = d.url ∧
      (10000 < count_words d.text →
        d'.text = List.intercalate [' '] ((pyWords d.text).take 10000)) ∧
      (count_words d.text ≤ 10000 → d'.text = d.text)) :=
  select_docs_c1_amended wDocsAB 5 100 10000 (by decide)

/-! ### C2 -/

/-- C2 counterexample: with two documents sharing one URL (50 and 70
words), the 70-word count recorded for the shared URL admits both, so the
50-word document is returned even though its word count is below 60. -/
theorem select_docs_c2_counterexample :
    ∃ d ∈ select_docs c2Docs 5 100 10000, count_words d.text < 60 := by decide

/-- C2 (amended with pairwise-distinct URLs): the acceptance cutoff is the
fixed constant 4 independent of the caller-supplied `n_docs`: for every
document list, `select_docs` returns literally the same result for any two
values of `n_docs`; and provided the documents' URLs are pairwise
distinct, a document with fewer than 60 words is never returned for any
`n_docs`. -/
theorem select_docs_c2_amended (docs : List Document)
    (n₁ n₂ min_words max_words : Nat) :
    select_docs docs n₁ min_words max_words
      = select_docs docs n₂ min_words max_words ∧
    ((docs.map Document.url).Nodup →
      ∀ d ∈ docs, count_words d.text < 60 →
        ∀ d' ∈ select_docs docs n₁ min_words max_words, d'.url ≠ d.url) := by
  refine ⟨rfl, ?_⟩
  intro hnd d hd hlt d' hd' hurl
  obtain ⟨d₀, hd₀, rfl, h60⟩ :=
    select_docs_members docs n₁ min_words max_words hnd d' hd'
  rw [truncateDoc_url] at hurl
  have heq : d₀ = d := docs_url_inj docs hnd d₀ hd₀ d hd hurl
  rw [heq] at h60
  omega

/-- Witness for C2 (amended): with distinct URLs (50 and 70 words), the
result is invariant in `n_docs` and the sole returned document is the
70-word one, not the 50-word document at URL `"a"`. -/
theorem select_docs_c2_amended_witness :
    select_docs c2wDocs 3 100 10000 = select_docs c2wDocs 7 100 10000 ∧
    (⟨words70, str "b"⟩ : Document).url ≠ str "a" :=
  ⟨(select_docs_c2_amended c2wDocs 3 7 100 10000).1,
   (select_docs_c2_amended c2wDocs 3 7 100 10000).2 (by decide)
     ⟨words50, str "a"⟩ (by decide) (by decide) ⟨words70, str "b"⟩ (by decide)⟩

/-! ### C3 -/

/-- C3 counterexample: A (60 words, url "a") and B (70 words, url "b")
both qualify and have distinct URLs, with B strictly larger — yet a third
document sharing B's URL overwrites B's recorded word count, so A is
selected while B is excluded. -/
theorem select_docs_c3_counterexample :
    60 ≤ count_words words60 ∧
    count_words words60 < count_words words70 ∧
    str "a" ≠ str "b" ∧
    (∃ d ∈ select_docs c3Docs 5 100 10000, d.url = str "a") ∧
    ¬ (∃ d ∈ select_docs c3Docs 5 100 10000, d.url = str "b") := by decide

/-- C3 (amended with pairwise-distinct URLs over the whole input): if all
documents' URLs are pairwise distinct, A and B are input documents with
word counts ≥ 60 and B strictly larger than A, then whenever a document
with A's URL is returned, a document with B's URL is returned as well —
B is never excluded by the 4-document cutoff while A is included. -/
theorem select_docs_c3_amended (docs : List Document)
    (n_docs min_words max_words : Nat)
    (hnd : (docs.map Document.url).Nodup) (A B : Document)
    (hA : A ∈ docs) (hB : B ∈ docs)
    (hA60 : 60 ≤ count_words A.text)
    (hAB : count_words A.text < count_words B.text)
    (hApicked : ∃ dA ∈ select_docs docs n_docs min_words max_words,
      dA.url = A.url) :
    ∃ dB ∈ select_docs docs n_docs min_words max_words, dB.url = B.url :=
  select_docs_prefers_aux docs n_docs min_words max_words hnd A B hA hB hAB hApicked

/-- Witness for C3 (amended) at two distinct-URL qualifying documents. -/
theorem select_docs_c3_amended_witness :
    ∃ dB ∈ select_docs wDocsAB 5 100 10000, dB.url = str "b" :=
  select_docs_c3_amended wDocsAB 5 100 10000 (by decide)
    ⟨words60, str "a"⟩ ⟨words70, str "b"⟩ (by decide) (by decide)
    (by decide) (by decide) (by decide)

/-! ### C4 -/

/-- C4: for every model outcome (a response text, or `none` when the
Claude call or parsing raises) and every question string, the
query-generation stage yields a non-empty query list whose last element
is the original question verbatim: on success `multi_queries` appends the
question after the parsed queries, and on any failure the orchestrator
falls back to the single-element list containing only the question. -/
theorem queryGenStage_c4 (modelResponse : Option Str) (prompt : Str)
    (num_queries : Nat) :
    queryGenStage modelResponse prompt num_queries ≠ [] ∧
    (queryGenStage modelResponse prompt num_queries).getLast? = some prompt := by
  unfold queryGenStage
  cases modelResponse with
  | none => simp
  | some resp =>
    cases h : multi_queries resp prompt num_queries with
    | none => simp [h]
    | some qs =>
      simp only [h]
      unfold multi_queries at h
      cases hp : parser_query_response resp num_queries with
      | none => rw [hp] at h; simp at h
      | some qs' =>
        rw [hp] at h
        simp only [Option.map_some'] at h
        obtain rfl := Option.some.inj h
        exact ⟨by simp, List.getLast?_concat _⟩

/-! ### C5 -/

/-- Query-parser response with two clean lines. -/
def c5Resp : Str := str "<queries>\na\nb\n</queries>"

/-- C5: whenever the cleaned-line count equals exactly `2 * num_queries`,
the parser keeps only the even-indexed entries (each then passed through
the final quote/tag cleanup), yielding exactly `num_queries` entries; for
any other count, all entries are kept in order. -/
theorem parser_query_response_c5 (response : Str) (num_queries : Nat)
    (qs L : List Str)
    (hq : parser_query_response response num_queries = some qs)
    (hL : enhancedLines response = some L) :
    (L.length = num_queries * 2 →
      qs.length = num_queries ∧
      ∀ i : Nat, qs[i]? = (L[2 * i]?).map (fun q => removeTags (removeQuotes q))) ∧
    (L.length ≠ num_queries * 2 →
      qs.length = L.length ∧
      ∀ i : Nat, qs[i]? = (L[i]?).map (fun q => removeTags (removeQuotes q))) := by
  unfold parser_query_response at hq
  rw [hL] at hq
  simp only [Option.map_some'] at hq
  obtain rfl := Option.some.inj hq
  constructor
  · intro hlen
    rw [if_pos hlen]
    constructor
    · simp only [List.length_map, everyOther_length, hlen]
      omega
    · intro i
      simp only [List.getElem?_map, everyOther_getElem?, Option.map_map]
      rfl
  · intro hlen
    rw [if_neg hlen]
    constructor
    · simp
    · intro i
      simp only [List.getElem?_map, Option.map_map]
      rfl

/-- Witness for C5: `"<queries>\na\nb\n</queries>"` with `num_queries = 1`
has 2 cleaned lines and yields exactly the even-indexed entry `"a"`. -/
theorem parser_query_response_c5_witness :
    ([str "a"] : List Str).length = 1 ∧
    ([str "a"] : List Str)[0]? =
      (([str "a", str "b"] : List Str)[2 * 0]?).map
        (fun q => removeTags (removeQuotes q)) :=
  ⟨((parser_query_response_c5 c5Resp 1 [str "a"] [str "a", str "b"]
      (by decide) (by decide)).1 (by decide)).1,
   ((parser_query_response_c5 c5Resp 1 [str "a"] [str "a", str "b"]
      (by decide) (by decide)).1 (by decide)).2 0⟩

/-! ### C6 -/

/-- Query-parser response with a single ordinal line. -/
def c6Resp : Str := str "<queries>\n1. foo\n</queries>"

/-- C6: every query returned by `parser_query_response` contains no
double-quote character and no angle-bracket tag markup (no substring
matching `<...>`); every returned query is the cleanup of some surviving
line; and a surviving line of the form `digits ++ ". " ++ r` has its
leading ordinal prefix removed — its per-line cleanup is exactly
`r` with double quotes removed. -/
theorem parser_query_response_c6 (response : Str) (num_queries : Nat)
    (qs : List Str)
    (hq : parser_query_response response num_queries = some qs) :
    (∀ q ∈ qs, '"' ∉ q ∧
      ∀ l₁ l₂ l₃ : List Char, q ≠ l₁ ++ ('<' :: (l₂ ++ ('>' :: l₃)))) ∧
    (∀ L, parsedLines response = some L →
      (∀ q ∈ qs, ∃ line ∈ L, q = removeTags (removeQuotes (enhance_line line))) ∧
      (∀ n r : Str, n ≠ [] → (∀ c ∈ n, c.isDigit = true) →
        enhance_line (n ++ str ". " ++ r) = removeQuotes r)) := by
  have hL : ∃ L₀, parsedLines response = some L₀ := by
    unfold parser_query_response enhancedLines at hq
    cases hP : parsedLines response with
    | none => rw [hP] at hq; simp at hq
    | some L₀ => exact ⟨L₀, rfl⟩
  obtain ⟨L₀, hL₀⟩ := hL
  have hqs : qs = ((if (L₀.map enhance_line).length = num_queries * 2
      then everyOther (L₀.map enhance_line)
      else L₀.map enhance_line).map removeQuotes).map removeTags := by
    unfold parser_query_response enhancedLines at hq
    rw [hL₀] at hq
    simp only [Option.map_some'] at hq
    exact (Option.some.inj hq).symm
  constructor
  · intro q hqmem
    rw [hqs] at hqmem
    simp only [List.mem_map] at hqmem
    obtain ⟨x, ⟨y, _, rfl⟩, rfl⟩ := hqmem
    constructor
    · intro hquote
      exact removeQuotes_no_quote y (removeTags_subset _ _ hquote)
    · exact noTag_decomp _ (hasTag_removeTags _)
  · intro L hLeq
    rw [hL₀] at hLeq
    obtain rfl := Option.some.inj hLeq
    constructor
    · intro q hqmem
      rw [hqs] at hqmem
      simp only [List.mem_map] at hqmem
      obtain ⟨x, ⟨y, hy, rfl⟩, rfl⟩ := hqmem
      have hy' : y ∈ L₀.map enhance_line := by
        by_cases hlen : (L₀.map enhance_line).length = num_queries * 2
        · rw [if_pos hlen] at hy
          exact everyOther_subset _ y hy
        · rwa [if_neg hlen] at hy
      obtain ⟨line, hline, rfl⟩ := List.mem_map.mp hy'
      exact ⟨line, hline, rfl⟩
    · intro n r hn hdig
      have hhead : headIsDigit (n ++ str ". " ++ r) = true := by
        cases n with
        | nil => exact absurd rfl hn
        | cons d n' =>
          simp only [List.cons_append, headIsDigit]
          exact hdig d (List.mem_cons_self _ _)
      unfold enhance_line
      rw [if_pos hhead, ordinal_strip n r hdig]

/-- Witness for C6 at the response `"<queries>\n1. foo\n</queries>"`:
the returned query `"foo"` is quote-free and tag-free, and the ordinal
line `"1. foo"` is cleaned to `"foo"`. -/
theorem parser_query_response_c6_witness :
    ('"' ∉ str "foo") ∧
    (str "foo" ≠ ([] : List Char) ++ ('<' :: (([] : List Char) ++ ('>' :: [])))) ∧
    enhance_line (str "1" ++ str ". " ++ str "foo") = removeQuotes (str "foo") :=
  ⟨((parser_query_response_c6 c6Resp 5 [str "foo"] (by decide)).1
      (str "foo") (by decide)).1,
   ((parser_query_response_c6 c6Resp 5 [str "foo"] (by decide)).1
      (str "foo") (by decide)).2 [] [] [],
   ((parser_query_response_c6 c6Resp 5 [str "foo"] (by decide)).2
      [str "1. foo"] (by decide)).2 (str "1") (str "foo") (by decide) (by decide)⟩

/-! ### C7 -/

/-- C7: in `extract_texts`, every produced entry comes from an input whose
response exists and has HTTP status 200; a response is routed to PDF
extraction exactly when the URL ends in `.pdf` or the body starts with
`%PDF` — when that test holds the result does not depend on the HTML
oracle, and when it fails the result does not depend on the PDF oracle;
a failure (raised exception) inside PDF extraction is absorbed, the URL
contributing no entry; and the non-PDF-content branch contributes the
`ValueError` object, not a document. -/
theorem extract_texts_c7 (inputs : List UrlInput) (num_words : Option Nat) :
    (∀ e ∈ extract_texts inputs num_words,
      ∃ inp ∈ inputs, processUrl inp num_words = some e ∧
        ∃ r, inp.resp = some r ∧ r.status = 200) ∧
    (∀ inp : UrlInput, ∀ r : Response, inp.resp = some r →
      pdfTag inp.url r = true → inp.pdfO = .err →
      processUrl inp num_words = none) ∧
    (∀ inp : UrlInput, ∀ r : Response, inp.resp = some r → r.status = 200 →
      pdfTag inp.url r = true → inp.pdfO = .notPdf →
      processUrl inp num_words = some (.errObj inp.url)) ∧
    (∀ inp : UrlInput, ∀ r : Response, ∀ o : Option Str, inp.resp = some r →
      pdfTag inp.url r = true →
      processUrl { inp with htmlO := o } num_words = processUrl inp num_words) ∧
    (∀ inp : UrlInput, ∀ r : Response, ∀ o : PdfOutcome, inp.resp = some r →
      pdfTag inp.url r = false →
      processUrl { inp with pdfO := o } num_words = processUrl inp num_words) := by
  refine ⟨?_, ?_, ?_, ?_, ?_⟩
  · intro e he
    obtain ⟨inp, hinp, hproc⟩ := List.mem_filterMap.mp he
    refine ⟨inp, hinp, hproc, ?_⟩
    obtain ⟨u, resp, pdfO, htmlO⟩ := inp
    cases resp with
    | none => simp [processUrl] at hproc
    | some r =>
      by_cases hs : r.status = 200
      · exact ⟨r, rfl, hs⟩
      · simp [processUrl, hs] at hproc
  · intro inp r hresp htag herr
    obtain ⟨u, resp, pdfO, htmlO⟩ := inp
    simp only at hresp herr htag
    subst hresp
    subst herr
    by_cases hs : r.status = 200 <;>
      simp [processUrl, hs, htag, extract_text_from_pdf]
  · intro inp r hresp hs htag hnp
    obtain ⟨u, resp, pdfO, htmlO⟩ := inp
    simp only at hresp hnp htag hs ⊢
    subst hresp
    subst hnp
    simp [processUrl, hs, htag, extract_text_from_pdf, setUrl]
  · intro inp r o hresp htag
    obtain ⟨u, resp, pdfO, htmlO⟩ := inp
    simp only at hresp htag ⊢
    subst hresp
    by_cases hs : r.status = 200 <;> simp [processUrl, hs, htag]
  · intro inp r o hresp htag
    obtain ⟨u, resp, pdfO, htmlO⟩ := inp
    simp only at hresp htag ⊢
    subst hresp
    by_cases hs : r.status = 200 <;> simp [processUrl, hs, htag]

/-- A PDF-tagged input whose PDF extraction raises. -/
def c7PdfErr : UrlInput :=
  ⟨str "http://x/y.pdf", some ⟨200, str "%PDF-1.4", str ""⟩, .err, some (str "ignored")⟩

/-- An HTML input (status 200, no PDF signature). -/
def c7Html : UrlInput :=
  ⟨str "http://x/y", some ⟨200, str "<html>", str "page"⟩, .err, some (str "page text")⟩

/-- Witness for C7: the raised PDF extraction at a `.pdf` URL with the
magic number contributes nothing, and changing the PDF oracle of an
HTML-routed input does not change its result. -/
theorem extract_texts_c7_witness :
    processUrl c7PdfErr none = none ∧
    processUrl { c7Html with pdfO := .ok (str "z") } none = processUrl c7Html none :=
  ⟨(extract_texts_c7 [c7PdfErr] none).2.1 c7PdfErr ⟨200, str "%PDF-1.4", str ""⟩
      rfl (by decide) rfl,
   (extract_texts_c7 [c7Html] none).2.2.2.2 c7Html ⟨200, str "<html>", str "page"⟩
      (.ok (str "z")) rfl (by decide)⟩

/-! ### C8 -/

/-- C8 counterexample: the claim says the PDF branch truncates to the
first `num_words` whitespace-delimited tokens, but the code slices
`text[:num_words]` by *characters*: with text `"aa bb"` and cap 3 the
result is `"aa "`, which is neither the first 3 tokens (`"aa bb"`) nor a
whitespace-normalized text. -/
theorem extract_text_from_pdf_c8_counterexample :
    extract_text_from_pdf (.ok (str "aa bb")) (str "u") (some 3)
      = some (.doc ⟨str "aa ", str "u"⟩) ∧
    str "aa " ≠ List.intercalate [' '] ((pyWords (str "aa bb")).take 3) ∧
    str "aa " ≠ List.intercalate [' '] (pyWords (str "aa bb")) := by decide

/-- C8 (amended): in the HTML branch (`extract_text`) a positive word cap
keeps exactly the first `num_words` whitespace-delimited tokens (word
count `min num_words (count_words t)`), and no cap whitespace-normalizes
(collapsing runs of whitespace, preserving the token list); in the PDF
branch (`extract_text_from_pdf`) a positive cap keeps the first
`num_words` *characters* of the raw page text, and no cap keeps the raw
text unchanged — the PDF branch never normalizes. -/
theorem extract_caps_c8_amended (t u : Str) (n : Nat) (hn : 0 < n) :
    (extract_text t (some n)).text = List.intercalate [' '] ((pyWords t).take n) ∧
    count_words (extract_text t (some n)).text = min n (count_words t) ∧
    (extract_text t none).text = List.intercalate [' '] (pyWords t) ∧
    pyWords (extract_text t none).text = pyWords t ∧
    extract_text_from_pdf (.ok t) u (some n) = some (.doc ⟨t.take n, u⟩) ∧
    extract_text_from_pdf (.ok t) u none = some (.doc ⟨t, u⟩) := by
  obtain ⟨n', rfl⟩ : ∃ n', n = n' + 1 := ⟨n - 1, by omega⟩
  exact ⟨rfl, count_words_intercalate_take t (n' + 1), rfl,
    pyWords_normalize t, rfl, rfl⟩

/-- Witness for C8 (amended) at text `"a  b"` with cap 1. -/
theorem extract_caps_c8_amended_witness :
    (extract_text (str "a  b") (some 1)).text
      = List.intercalate [' '] ((pyWords (str "a  b")).take 1) ∧
    count_words (extract_text (str "a  b") (some 1)).text
      = min 1 (count_words (str "a  b")) ∧
    (extract_text (str "a  b") none).text
      = List.intercalate [' '] (pyWords (str "a  b")) ∧
    pyWords (extract_text (str "a  b") none).text = pyWords (str "a  b") ∧
    extract_text_from_pdf (.ok (str "a  b")) (str "u") (some 1)
      = some (.doc ⟨(str "a  b").take 1, str "u"⟩) ∧
    extract_text_from_pdf (.ok (str "a  b")) (str "u") none
      = some (.doc ⟨str "a  b", str "u"⟩) :=
  extract_caps_c8_amended (str "a  b") (str "u") 1 (by decide)

/-! ### C9 -/

/-- C9: if all four tag pairs extract and parse to floats, the parser
returns the four-key mapping of those values in order; if some field's
tag pair is absent or its content fails the float conversion, the parser
returns the error naming (the first) such field, with no internal retry
(the function is a single pass over the four keys). -/
theorem parser_prediction_response_c9 (parseF : Str → Option ℚ) (response : Str)
    (v₁ v₂ v₃ v₄ : ℚ) :
    (parseField parseF response (str "p_yes") = some v₁ →
     parseField parseF response (str "p_no") = some v₂ →
     parseField parseF response (str "info_utility") = some v₃ →
     parseField parseF response (str "confidence") = some v₄ →
     parser_prediction_response parseF response =
       .ok [(str "p_yes", v₁), (str "p_no", v₂), (str "info_utility", v₃),
            (str "confidence", v₄)]) ∧
    ((∃ k ∈ predictionKeys, parseField parseF response k = none) →
     ∃ k ∈ predictionKeys, parseField parseF response k = none ∧
       parser_prediction_response parseF response =
         .error (str "Error parsing " ++ k)) := by
  constructor
  · intro h1 h2 h3 h4
    simp [parser_prediction_response, predictionKeys, parseFields, h1, h2, h3, h4]
  · rintro ⟨k, hk, hnone⟩
    cases h1 : parseField parseF response (str "p_yes") with
    | none =>
      exact ⟨str "p_yes", by simp [predictionKeys],
        h1, by simp [parser_prediction_response, predictionKeys, parseFields, h1]⟩
    | some v1 =>
      cases h2 : parseField parseF response (str "p_no") with
      | none =>
        exact ⟨str "p_no", by simp [predictionKeys],
          h2, by simp [parser_prediction_response, predictionKeys, parseFields, h1, h2]⟩
      | some v2 =>
        cases h3 : parseField parseF response (str "info_utility") with
        | none =>
          exact ⟨str "info_utility", by simp [predictionKeys], h3,
            by simp [parser_prediction_response, predictionKeys, parseFields, h1, h2, h3]⟩
        | some v3 =>
          cases h4 : parseField parseF response (str "confidence") with
          | none =>
            exact ⟨str "confidence", by simp [predictionKeys], h4,
              by simp [parser_prediction_response, predictionKeys, parseFields,
                h1, h2, h3, h4]⟩
          | some v4 =>
            exfalso
            simp only [predictionKeys, List.mem_cons, List.not_mem_nil, or_false] at hk
            rcases hk with rfl | rfl | rfl | rfl <;> simp_all

/-- The behaviour of Python `float()` on the four literals appearing in
the witness responses (an oracle: `float()` itself is external). -/
def pf₀ : Str → Option ℚ := fun s =>
  if s = str "0.7" then some (7/10)
  else if s = str "0.3" then some (3/10)
  else if s = str "0.8" then some (4/5)
  else if s = str "0.9" then some (9/10)
  else none

/-- A well-formed prediction response. -/
def c9RespOk : Str :=
  str "<p_yes>0.7</p_yes><p_no>0.3</p_no><info_utility>0.8</info_utility><confidence>0.9</confidence>"

/-- A prediction response missing the `<confidence>` tag pair. -/
def c9RespBad : Str :=
  str "<p_yes>0.7</p_yes><p_no>0.3</p_no><info_utility>0.8</info_utility>"

/-- Witness for C9: the spec's example response parses to the four-field
mapping, and dropping `<confidence>` yields the error naming a failing
field. -/
theorem parser_prediction_response_c9_witness :
    parser_prediction_response pf₀ c9RespOk =
      .ok [(str "p_yes", 7/10), (str "p_no", 3/10), (str "info_utility", 4/5),
           (str "confidence", 9/10)] ∧
    (∃ k ∈ predictionKeys, parseField pf₀ c9RespBad k = none ∧
      parser_prediction_response pf₀ c9RespBad =
        .error (str "Error parsing " ++ k)) :=
  ⟨(parser_prediction_response_c9 pf₀ c9RespOk (7/10) (3/10) (4/5) (9/10)).1
      rfl rfl rfl rfl,
   (parser_prediction_response_c9 pf₀ c9RespBad 0 0 0 0).2
      ⟨str "confidence", by decide, rfl⟩⟩

/-! ### C10 -/

/-- A query response whose second line starts with a digit but has no
`". "` separator. -/
def c10Resp : Str := str "<queries>\nfoo\n2024 bar\n</queries>"

/-- C10 counterexample: the line `"2024 bar"` survives the empty-line
filter and is transformed into the empty string, but with
`num_queries = 1` the cleaned-line count is `2 = 2 * 1`, the even-index
heuristic fires, and the empty string does *not* remain in the returned
query list. -/
theorem parser_query_response_c10_counterexample :
    parsedLines c10Resp = some [str "foo", str "2024 bar"] ∧
    headIsDigit (str "2024 bar") = true ∧
    containsSub (str ". ") (str "2024 bar") = false ∧
    parser_query_response c10Resp 1 = some [str "foo"] ∧
    ([] : Str) ∉ [str "foo"] := by decide

/-- C10 (amended): a surviving line that begins with a digit but contains
no `". "` separator is transformed into the empty string rather than kept
verbatim (the empty-line filter runs before this transformation, never
after it), so the empty string is present among the enhanced lines; it
remains in the returned query list whenever the `2 × num_queries`
even-index heuristic does not fire (it can be dropped when it does). -/
theorem parser_query_response_c10_amended (response : Str) (num_queries : Nat)
    (L : List Str) (hL : parsedLines response = some L)
    (q : Str) (hq : q ∈ L) (hd : headIsDigit q = true)
    (hsep : containsSub (str ". ") q = false) :
    enhance_line q = [] ∧
    ([] : Str) ∈ L.map enhance_line ∧
    ((L.map enhance_line).length ≠ num_queries * 2 →
      parser_query_response response num_queries =
        some (((L.map enhance_line).map removeQuotes).map removeTags) ∧
      ([] : Str) ∈ ((L.map enhance_line).map removeQuotes).map removeTags) := by
  have henh : enhance_line q = [] := by
    unfold enhance_line
    rw [if_pos hd, splitOnSub_no_occurrence _ _ hsep]
    rfl
  have hmem : ([] : Str) ∈ L.map enhance_line := by
    rw [← henh]
    exact List.mem_map_of_mem _ hq
  refine ⟨henh, hmem, ?_⟩
  intro hne
  constructor
  · unfold parser_query_response enhancedLines
    rw [hL]
    simp only [Option.map_some']
    rw [if_neg hne]
  · have : removeTags (removeQuotes ([] : Str)) = ([] : Str) := rfl
    rw [← this]
    exact List.mem_map_of_mem _ (List.mem_map_of_mem _ hmem)

/-- Witness for C10 (amended): with `num_queries = 5` the heuristic does
not fire and the empty string stays in the returned query list. -/
theorem parser_query_response_c10_amended_witness :
    enhance_line (str "2024 bar") = [] ∧
    ([] : Str) ∈ ([str "foo", str "2024 bar"].map enhance_line) ∧
    parser_query_response c10Resp 5 =
      some ((([str "foo", str "2024 bar"].map enhance_line).map
        removeQuotes).map removeTags) ∧
    ([] : Str) ∈ (([str "foo", str "2024 bar"].map enhance_line).map
        removeQuotes).map removeTags :=
  have h := parser_query_response_c10_amended c10Resp 5
    [str "foo", str "2024 bar"] (by decide) (str "2024 bar")
    (by decide) (by decide) (by decide)
  ⟨h.1, h.2.1, (h.2.2 (by decide)).1, (h.2.2 (by decide)).2⟩

end Mech
